import Mathlib

/-!
Verification of the FunSystem encrypted container.

Sources embedded here: src/backup/utils/fs_crypto.py (class FS_Crypto),
src/utils/fs_manager.py (class MyFSManager) and the metadata counters of
src/utils/fs_metadata.py (class Metadata).

Byte strings are modelled as lists of naturals.  The AES block cipher and the
HMAC-SHA256 pseudorandom function used by PBKDF2 are third-party library
primitives (pycryptodome), not code of this repository; they are therefore
modelled generically: every definition and theorem is parametric in a block
function E (key and counter block to a 16-byte output) and in a PRF prf
(password and data to a 32-byte output).  GCM mode itself is modelled
structurally -- a counter-mode keystream XORed onto the data, and a
deterministic 16-byte authentication tag computed from key, nonce and
ciphertext -- which is exactly what the round-trip, length and
password-check claims depend on.
-/

/-- Pointwise XOR of two byte strings, truncating to the shorter one
(the semantics of the XOR inside counter mode). -/
def xorBytes (a b : List Nat) : List Nat := List.zipWith (fun x y => x ^^^ y) a b

/-- Counter-mode block sequence: n successive blocks of the keyed block
function, at consecutive counter values. -/
def ctrBlocks (blk : Nat → List Nat) : Nat → Nat → List Nat
  | _, 0 => []
  | ctr, n + 1 => blk ctr ++ ctrBlocks blk (ctr + 1) n

/-- GCM counter-mode keystream of a given byte length (counters start at 2,
counter 1 being reserved for the tag mask).  One block per output byte are
generated and the excess is dropped; only the length matters to the claims. -/
def gcmKeystream (E : List Nat → List Nat → List Nat) (key nonce : List Nat)
    (len : Nat) : List Nat :=
  (ctrBlocks (fun c => E key (nonce ++ [0, 0, 0, c])) 2 len).take len

/-- Little-endian 16-byte rendering of a natural number; the shape of the
GCM authentication tag. -/
def natToBytes16 (h : Nat) : List Nat :=
  (List.range 16).map (fun i => (h >>> (8 * i)) % 256)

/-- The 16-byte GCM authentication tag.  Modelled as a deterministic digest
of the key (through the encrypted counter-1 block), the nonce and the
ciphertext; the claims only rely on the tag being a 16-byte deterministic
function of those three inputs. -/
def gcmTag (E : List Nat → List Nat → List Nat) (key nonce ct : List Nat) :
    List Nat :=
  natToBytes16 ((nonce ++ ct).foldl (fun h b => h * 257 + b + 1)
    ((E key (nonce ++ [0, 0, 0, 1])).foldl (fun h b => h * 256 + b) 0))

/-- FS_Crypto.encrypt (src/backup/utils/fs_crypto.py lines 17-22): AES-GCM
encryption, returning the 16-byte tag followed by the ciphertext. -/
def FS_Crypto.encrypt (E : List Nat → List Nat → List Nat)
    (data key nonce : List Nat) : List Nat :=
  let ct := xorBytes data (gcmKeystream E key nonce data.length)
  gcmTag E key nonce ct ++ ct

/-- FS_Crypto.decrypt (src/backup/utils/fs_crypto.py lines 25-32): splits the
leading 16 bytes as the tag, authenticates and decrypts the remainder.
decrypt_and_verify raising on a bad tag is modelled by returning none. -/
def FS_Crypto.decrypt (E : List Nat → List Nat → List Nat)
    (encrypted_data key nonce : List Nat) : Option (List Nat) :=
  let tag := encrypted_data.take 16
  let ct := encrypted_data.drop 16
  if gcmTag E key nonce ct = tag then
    some (xorBytes ct (gcmKeystream E key nonce ct.length))
  else none

/-- One PBKDF2 block-accumulation: c further PRF iterations, XORing each
U value into the accumulator. -/
def pbkdf2Round (prf : String → List Nat → List Nat) (pw : String) :
    Nat → List Nat → List Nat → List Nat
  | 0, _, acc => acc
  | c + 1, u, acc => pbkdf2Round prf pw c (prf pw u) (xorBytes acc (prf pw u))

/-- The i-th PBKDF2 block T_i = U_1 XOR ... XOR U_count with
U_1 = prf(pw, salt || INT(i)). -/
def pbkdf2Block (prf : String → List Nat → List Nat) (pw : String)
    (salt : List Nat) (i count : Nat) : List Nat :=
  pbkdf2Round prf pw (count - 1) (prf pw (salt ++ [0, 0, 0, i]))
    (prf pw (salt ++ [0, 0, 0, i]))

/-- PBKDF2 with a 32-byte PRF (SHA-256), producing dkLen bytes.  With
dkLen = 44 and hLen = 32 exactly two blocks are needed, as in the library
call of FS_Crypto.derive_key. -/
def PBKDF2 (prf : String → List Nat → List Nat) (pw : String)
    (salt : List Nat) (dkLen count : Nat) : List Nat :=
  (pbkdf2Block prf pw salt 1 count ++ pbkdf2Block prf pw salt 2 count).take dkLen

/-- The default iteration count of FS_Crypto.derive_key
(src/backup/utils/fs_crypto.py line 12). -/
def defaultIterations : Nat := 100000

/-- FS_Crypto.derive_key (src/backup/utils/fs_crypto.py lines 11-14):
PBKDF2 with dkLen 44; the first 32 bytes are the AES key, the remaining 12
the AES nonce. -/
def FS_Crypto.derive_key (prf : String → List Nat → List Nat)
    (password : String) (salt : List Nat) (iterations : Nat) :
    List Nat × List Nat :=
  let blob := PBKDF2 prf password salt 44 iterations
  (blob.take 32, blob.drop 32)

/-- All-zero 32-byte PRF used to instantiate witnesses. -/
def prfZ : String → List Nat → List Nat := fun _ _ => List.replicate 32 0

/-- All-zero 16-byte block function used to instantiate witnesses. -/
def blockZ : List Nat → List Nat → List Nat := fun _ _ => List.replicate 16 0

/-! ### Crypto lemmas -/

theorem xorBytes_length (a b : List Nat) :
    (xorBytes a b).length = min a.length b.length := by
  simp [xorBytes]

theorem xorBytes_cancel :
    ∀ (p ks : List Nat), p.length ≤ ks.length →
      xorBytes (xorBytes p ks) ks = p := by
  intro p
  induction p with
  | nil => intro ks _; simp [xorBytes]
  | cons a p ih =>
    intro ks hks
    cases ks with
    | nil => simp at hks
    | cons b ks =>
      simp only [List.length_cons] at hks
      have h1 : xorBytes (a :: p) (b :: ks) = (a ^^^ b) :: xorBytes p ks := rfl
      have h2 : xorBytes ((a ^^^ b) :: xorBytes p ks) (b :: ks)
          = ((a ^^^ b) ^^^ b) :: xorBytes (xorBytes p ks) ks := rfl
      rw [h1, h2, ih ks (by omega)]
      simp [Nat.xor_assoc]

theorem ctrBlocks_length (blk : Nat → List Nat)
    (hblk : ∀ c, (blk c).length = 16) :
    ∀ (n ctr : Nat), (ctrBlocks blk ctr n).length = 16 * n := by
  intro n
  induction n with
  | zero => intro ctr; simp [ctrBlocks]
  | succ n ih =>
    intro ctr
    simp [ctrBlocks, hblk, ih (ctr + 1)]
    ring

theorem gcmKeystream_length (E : List Nat → List Nat → List Nat)
    (key nonce : List Nat) (len : Nat)
    (hE : ∀ k b, (E k b).length = 16) :
    (gcmKeystream E key nonce len).length = len := by
  have h := ctrBlocks_length (fun c => E key (nonce ++ [0, 0, 0, c]))
    (fun c => hE key (nonce ++ [0, 0, 0, c])) len 2
  simp only [gcmKeystream, List.length_take, h]
  omega

theorem natToBytes16_length (h : Nat) : (natToBytes16 h).length = 16 := by
  simp [natToBytes16]

/-- GCM round-trip, generic in the block function: decrypting an encryption
under the same key and nonce recovers the plaintext. -/
theorem gcm_roundtrip (E : List Nat → List Nat → List Nat)
    (hE : ∀ k b, (E k b).length = 16) (data key nonce : List Nat) :
    FS_Crypto.decrypt E (FS_Crypto.encrypt E data key nonce) key nonce =
      some data := by
  have hks : (gcmKeystream E key nonce data.length).length = data.length :=
    gcmKeystream_length E key nonce data.length hE
  have hct : (xorBytes data (gcmKeystream E key nonce data.length)).length
      = data.length := by
    rw [xorBytes_length, hks]; omega
  have htag : (gcmTag E key nonce
      (xorBytes data (gcmKeystream E key nonce data.length))).length = 16 :=
    natToBytes16_length _
  simp only [FS_Crypto.encrypt, FS_Crypto.decrypt]
  rw [← htag, List.take_left, List.drop_left]
  rw [if_pos rfl, hct]
  exact congrArg some
    (xorBytes_cancel data (gcmKeystream E key nonce data.length)
      (le_of_eq hks.symm))

/-- Length of a PBKDF2 accumulator round: preserved when the PRF always
returns 32 bytes and the accumulator starts at 32 bytes. -/
theorem pbkdf2Round_length (prf : String → List Nat → List Nat) (pw : String)
    (hprf : ∀ p s, (prf p s).length = 32) :
    ∀ (c : Nat) (u acc : List Nat), acc.length = 32 →
      (pbkdf2Round prf pw c u acc).length = 32 := by
  intro c
  induction c with
  | zero => intro u acc hacc; simpa [pbkdf2Round] using hacc
  | succ c ih =>
    intro u acc hacc
    simp only [pbkdf2Round]
    exact ih (prf pw u) _ (by rw [xorBytes_length, hacc, hprf]; omega)

theorem pbkdf2Block_length (prf : String → List Nat → List Nat) (pw : String)
    (salt : List Nat) (i count : Nat)
    (hprf : ∀ p s, (prf p s).length = 32) :
    (pbkdf2Block prf pw salt i count).length = 32 :=
  pbkdf2Round_length prf pw hprf _ _ _ (hprf pw _)

theorem PBKDF2_length_44 (prf : String → List Nat → List Nat) (pw : String)
    (salt : List Nat) (count : Nat)
    (hprf : ∀ p s, (prf p s).length = 32) :
    (PBKDF2 prf pw salt 44 count).length = 44 := by
  simp only [PBKDF2, List.length_take, List.length_append,
    pbkdf2Block_length prf pw salt 1 count hprf,
    pbkdf2Block_length prf pw salt 2 count hprf]
  omega

/-- C2: for every plaintext byte sequence p, every 32-byte key k and every
12-byte nonce n (and every 16-byte block cipher E), decrypt(encrypt(p, k, n),
k, n) = p; encrypt returns the 16-byte authentication tag followed by a
ciphertext of the plaintext's length, and decrypt splits the leading 16 bytes
as the tag. -/
theorem C2_encrypt_decrypt_roundtrip (E : List Nat → List Nat → List Nat)
    (hE : ∀ k b, (E k b).length = 16) (p k n : List Nat)
    (hk : k.length = 32) (hn : n.length = 12) :
    FS_Crypto.decrypt E (FS_Crypto.encrypt E p k n) k n = some p ∧
    (∃ tag ct, FS_Crypto.encrypt E p k n = tag ++ ct ∧ tag.length = 16 ∧
      ct.length = p.length) ∧
    ∀ d, FS_Crypto.decrypt E d k n =
      (if gcmTag E k n (d.drop 16) = d.take 16 then
        some (xorBytes (d.drop 16) (gcmKeystream E k n (d.drop 16).length))
      else none) := by
  refine ⟨gcm_roundtrip E hE p k n, ?_, fun d => rfl⟩
  refine ⟨gcmTag E k n (xorBytes p (gcmKeystream E k n p.length)),
    xorBytes p (gcmKeystream E k n p.length), rfl, natToBytes16_length _, ?_⟩
  rw [xorBytes_length, gcmKeystream_length E k n p.length hE]
  omega

/-- Witness for C2 at a concrete block function, key, nonce and plaintext. -/
theorem C2_encrypt_decrypt_roundtrip_witness :
    FS_Crypto.decrypt blockZ
      (FS_Crypto.encrypt blockZ [5, 6, 7] (List.replicate 32 0)
        (List.replicate 12 0))
      (List.replicate 32 0) (List.replicate 12 0) = some [5, 6, 7] :=
  (C2_encrypt_decrypt_roundtrip blockZ (fun _ _ => by simp [blockZ])
    [5, 6, 7] (List.replicate 32 0) (List.replicate 12 0) (by simp)
    (by simp)).1

/-- C8: key derivation produces exactly 44 bytes of PBKDF2 output (the
default iteration count being 100000), split into a 32-byte cipher key and a
12-byte cipher nonce, and it is a deterministic function of the password and
salt, so re-encryption under an unchanged password and salt reuses the same
key and nonce. -/
theorem C8_derive_key_shape (prf : String → List Nat → List Nat)
    (hprf : ∀ p s, (prf p s).length = 32) (pw : String) (salt : List Nat)
    (iters : Nat) :
    (PBKDF2 prf pw salt 44 iters).length = 44 ∧
    FS_Crypto.derive_key prf pw salt iters =
      ((PBKDF2 prf pw salt 44 iters).take 32,
        (PBKDF2 prf pw salt 44 iters).drop 32) ∧
    (FS_Crypto.derive_key prf pw salt iters).1.length = 32 ∧
    (FS_Crypto.derive_key prf pw salt iters).2.length = 12 ∧
    defaultIterations = 100000 ∧
    ∀ pw2 salt2, pw2 = pw → salt2 = salt →
      FS_Crypto.derive_key prf pw2 salt2 iters =
        FS_Crypto.derive_key prf pw salt iters := by
  have h44 := PBKDF2_length_44 prf pw salt iters hprf
  refine ⟨h44, rfl, ?_, ?_, rfl, ?_⟩
  · simp [FS_Crypto.derive_key, h44]
  · simp [FS_Crypto.derive_key, h44]
  · intro pw2 salt2 h1 h2; rw [h1, h2]

/-- Witness string for derive-key statements. -/
def pwA : String := "a"

/-- Witness for C8 at the all-zero PRF, a concrete password, salt and
iteration count. -/
theorem C8_derive_key_shape_witness :
    (PBKDF2 prfZ pwA [1] 44 1).length = 44 ∧
    (FS_Crypto.derive_key prfZ pwA [1] 1).1.length = 32 ∧
    (FS_Crypto.derive_key prfZ pwA [1] 1).2.length = 12 :=
  let h := C8_derive_key_shape prfZ (fun _ _ => by simp [prfZ]) pwA [1] 1
  ⟨h.1, h.2.2.1, h.2.2.2.1⟩

/-! ### Data model of the container manager (src/utils/fs_manager.py) -/

/-- One file-table entry (the File Record dictionary built by
MyFSManager.import_file, lines 203-227).  Timestamps, display name, source
path and OS attributes are bookkeeping fields no claim refers to and are
omitted; encSalt and encNonce model the record's optional encryption
sub-dictionary (meaningful only when encrypted is true). -/
structure FileRecord where
  fid : Nat
  size : Nat
  position : Nat
  deleted : Bool
  encrypted : Bool
  encSalt : List Nat
  encNonce : List Nat
  deriving DecidableEq, Repr

/-- Error kinds raised by MyFSManager (all are ValueError in the source,
distinguished here by their message). -/
inductive FSError where
  | notInitialized
  | notFound
  | capacityExceeded
  | passwordRequired
  | authError
  | hardwareMismatch
  deriving DecidableEq, Repr

/-- The manager state: MyFSManager.__init__ fields plus the Metadata
counters of src/utils/fs_metadata.py.  container holds the PLAINTEXT
container bytes (header followed by payload); atRest records whether the
on-disk file is currently sealed, in which case its byte length is
container.length + 16 (the GCM tag; the GCM ciphertext has the plaintext's
length).  uuid4 file ids are modelled by the fresh counter nextId, and
headerLen is len(self.header) at container creation. -/
structure FSState where
  fileTable : List FileRecord
  container : List Nat
  headerLen : Nat
  maxFiles : Nat
  fileCount : Nat
  deletedCount : Nat
  isInit : Bool
  atRest : Bool
  nextId : Nat
  accessPassword : String
  deriving DecidableEq, Repr

/-- Number of records with deleted=False (`active_files` in the source). -/
def countActive (l : List FileRecord) : Nat :=
  (l.filter (fun r => !r.deleted)).length

/-- Number of records with deleted=True. -/
def countDeleted (l : List FileRecord) : Nat :=
  (l.filter (fun r => r.deleted)).length

/-- The metadata counter recomputation of MyFSManager.save_filesystem
(lines 131-147): file_count is set to len(self.file_table) -- the full
table length, soft-deleted records included -- deleted_count to the number
of records with deleted=True, and the container is left sealed. -/
def save_counts (s : FSState) : FSState :=
  { s with fileCount := s.fileTable.length,
           deletedCount := countDeleted s.fileTable,
           atRest := true }

/-- MyFSManager.save_filesystem (lines 131-147). -/
def save_filesystem (s : FSState) : Except FSError FSState :=
  if s.isInit = false then .error .notInitialized
  else .ok (save_counts s)

/-- MyFSManager._get_next_file_position (lines 373-376): the current byte
size of the on-disk container file.  import_file calls it BEFORE unsealing
the container, so while the container is sealed at rest the result is the
sealed size, i.e. the plaintext length plus the 16-byte tag. -/
def next_file_position (s : FSState) : Nat :=
  if s.atRest then s.container.length + 16 else s.container.length

/-- Python r+b write at a seek offset: bytes before the offset are kept, a
seek past the end of the file zero-fills the gap, and the written data
overwrites in place. -/
def writeAt (c : List Nat) (pos : Nat) (d : List Nat) : List Nat :=
  c.take pos ++ List.replicate (pos - c.length) 0 ++ d ++ c.drop (pos + d.length)

/-- The bytes import_file stores (lines 192-198): the raw data, or its
per-file encryption under a key and nonce derived from the file password and
the fresh salt.  A falsy (absent or empty) password means no per-file
encryption and is modelled as none. -/
def storedBytes (prf : String → List Nat → List Nat)
    (E : List Nat → List Nat → List Nat) (data : List Nat)
    (fpw : Option String) (salt : List Nat) : List Nat :=
  match fpw with
  | none => data
  | some pw =>
    FS_Crypto.encrypt E data
      (FS_Crypto.derive_key prf pw salt defaultIterations).1
      (FS_Crypto.derive_key prf pw salt defaultIterations).2

/-- The File Record import_file appends (lines 203-227). -/
def importRecord (prf : String → List Nat → List Nat)
    (E : List Nat → List Nat → List Nat) (s : FSState) (data : List Nat)
    (fpw : Option String) (salt : List Nat) : FileRecord :=
  { fid := s.nextId,
    size := (storedBytes prf E data fpw salt).length,
    position := next_file_position s,
    deleted := false,
    encrypted := fpw.isSome,
    encSalt := match fpw with | none => [] | some _ => salt,
    encNonce := match fpw with
      | none => []
      | some pw => (FS_Crypto.derive_key prf pw salt defaultIterations).2 }

/-- MyFSManager.import_file (lines 172-242).  The uuid4 file id is modelled
by the fresh counter s.nextId, the source file's content is the data
argument and the random per-file salt os.urandom(16) is the salt argument.
The write position is the on-disk (still sealed) file size; the container is
then unsealed and the bytes are written at that position -- zero-filling the
16 bytes past the plaintext's end -- after which save_filesystem recomputes
the counters and re-seals. -/
def import_file (prf : String → List Nat → List Nat)
    (E : List Nat → List Nat → List Nat) (s : FSState) (data : List Nat)
    (fpw : Option String) (salt : List Nat) : Except FSError (FSState × Nat) :=
  if s.isInit = false then .error .notInitialized
  else if s.maxFiles ≤ countActive s.fileTable then .error .capacityExceeded
  else
    .ok (save_counts
      { s with
          fileTable := s.fileTable ++ [importRecord prf E s data fpw salt],
          fileCount := s.fileCount + 1,
          atRest := false,
          container := writeAt s.container (next_file_position s)
            (storedBytes prf E data fpw salt),
          nextId := s.nextId + 1 }, s.nextId)

/-- The per-file decryption step of export_file (lines 267-275): re-derives
the per-file key and nonce from the record's stored salt and the supplied
password, rejects the password when the derived nonce differs from the
stored nonce, and only then opens the stored bytes (a failed open also
surfaces as an error). -/
def export_decrypt (prf : String → List Nat → List Nat)
    (E : List Nat → List Nat → List Nat) (s : FSState) (r : FileRecord)
    (pw : String) : Except FSError (List Nat) :=
  if (FS_Crypto.derive_key prf pw r.encSalt defaultIterations).2 = r.encNonce then
    match FS_Crypto.decrypt E ((s.container.drop r.position).take r.size)
        (FS_Crypto.derive_key prf pw r.encSalt defaultIterations).1
        r.encNonce with
    | some pt => .ok pt
    | none => .error .authError
  else .error .authError

/-- The body of export_file once the record is found (lines 256-280): the
stored bytes are read at the record's offset from the unsealed container;
an individually encrypted record demands a file password. -/
def export_found (prf : String → List Nat → List Nat)
    (E : List Nat → List Nat → List Nat) (s : FSState) (r : FileRecord)
    (fpw : Option String) : Except FSError (List Nat) :=
  if r.encrypted then
    match fpw with
    | none => .error .passwordRequired
    | some pw => export_decrypt prf E s r pw
  else .ok ((s.container.drop r.position).take r.size)

/-- MyFSManager.export_file (lines 244-293): looks up an active record and
hands it to export_found.  The destination write, attribute restore and
final re-seal do not change the manager state; the function returns the
exported bytes. -/
def export_file (prf : String → List Nat → List Nat)
    (E : List Nat → List Nat → List Nat) (s : FSState) (fid : Nat)
    (fpw : Option String) : Except FSError (List Nat) :=
  if s.isInit = false then .error .notInitialized
  else
    match s.fileTable.find? (fun f => f.fid == fid && !f.deleted) with
    | none => .error .notFound
    | some r => export_found prf E s r fpw

/-- MyFSManager.list_files (lines 296-303). -/
def list_files (s : FSState) (include_deleted : Bool) : List FileRecord :=
  if s.isInit = false then []
  else if include_deleted then s.fileTable
  else s.fileTable.filter (fun f => !f.deleted)

/-- In-place update of the first active record with the given id, setting
its deleted flag (the mutation of the record found by next() in
delete_file_soft). -/
def markDeleted : List FileRecord → Nat → List FileRecord
  | [], _ => []
  | r :: rs, fid =>
    if r.fid == fid && !r.deleted then { r with deleted := true } :: rs
    else r :: markDeleted rs fid

/-- MyFSManager.delete_file_soft (lines 306-319). -/
def delete_file_soft (s : FSState) (fid : Nat) : Except FSError FSState :=
  if s.isInit = false then .error .notInitialized
  else
    match s.fileTable.find? (fun f => f.fid == fid && !f.deleted) with
    | none => .error .notFound
    | some _ =>
      .ok (save_counts
        { s with fileTable := markDeleted s.fileTable fid,
                 fileCount := s.fileCount - 1,
                 deletedCount := s.deletedCount + 1 })

/-- In-place update of the first deleted record with the given id, clearing
its deleted flag (the mutation in recover_file). -/
def markRecovered : List FileRecord → Nat → List FileRecord
  | [], _ => []
  | r :: rs, fid =>
    if r.fid == fid && r.deleted then { r with deleted := false } :: rs
    else r :: markRecovered rs fid

/-- MyFSManager.recover_file (lines 353-370). -/
def recover_file (s : FSState) (fid : Nat) : Except FSError FSState :=
  if s.isInit = false then .error .notInitialized
  else
    match s.fileTable.find? (fun f => f.fid == fid && f.deleted) with
    | none => .error .notFound
    | some _ =>
      if s.maxFiles ≤ countActive s.fileTable then .error .capacityExceeded
      else
        .ok (save_counts
          { s with fileTable := markRecovered s.fileTable fid,
                   fileCount := s.fileCount + 1,
                   deletedCount := s.deletedCount - 1 })

/-- MyFSManager._calculate_file_position (lines 379-382) applied to one
record: an offset strictly greater than the removed position shifts down by
the removed size. -/
def shiftRecord (file_position file_size : Nat) (f : FileRecord) : FileRecord :=
  if file_position < f.position then { f with position := f.position - file_size }
  else f

/-- MyFSManager.delete_file_permanent (lines 322-350): matches a record by
id only (deleted or not), removes its byte range from the unsealed
container, drops it from the table, shifts later offsets down by its size,
and saves. -/
def delete_file_permanent (s : FSState) (fid : Nat) : Except FSError FSState :=
  if s.isInit = false then .error .notInitialized
  else
    match s.fileTable.find? (fun f => f.fid == fid) with
    | none => .error .notFound
    | some r =>
      .ok (save_counts
        { s with
            container := s.container.take r.position ++
              s.container.drop (r.position + r.size),
            atRest := false,
            fileCount := if !r.deleted then s.fileCount - 1 else s.fileCount,
            deletedCount := if r.deleted then s.deletedCount - 1 else s.deletedCount,
            fileTable := (s.fileTable.filter (fun f => f.fid != fid)).map
              (shiftRecord r.position r.size) })

/-- MyFSManager.verify_password (lines 26-44).  The body attempts to decrypt
the metadata and the container with material derived from the candidate
password, reporting success as a boolean (exceptions inside the try block
are downgraded to False); with the cipher layer abstracted this is modelled
as comparison with the stored access password.  The not-initialized guard
raises: it sits before the try block. -/
def verify_password (s : FSState) (pw : String) : Except FSError Bool :=
  if s.isInit = false then .error .notInitialized
  else .ok (pw == s.accessPassword)

/-- MyFSManager.change_password (lines 46-71), modelled at the same level:
guard, old-password verification, then re-keying under a fresh salt, leaving
table and container bytes unchanged. -/
def change_password (s : FSState) (old newPw : String) : Except FSError FSState :=
  if s.isInit = false then .error .notInitialized
  else if old == s.accessPassword then .ok { s with accessPassword := newPw }
  else .error .authError

/-- The manager state right after initialize_filesystem (lines 73-98): the
container file holds exactly the header, the table is empty, the counters
are zero and save_filesystem has sealed the container. -/
def initState (header : List Nat) (maxN : Nat) (pw : String) : FSState :=
  { fileTable := [], container := header, headerLen := header.length,
    maxFiles := maxN, fileCount := 0, deletedCount := 0, isInit := true,
    atRest := true, nextId := 0, accessPassword := pw }

/-- A fresh manager before any initialize or load (MyFSManager.__init__,
lines 16-24). -/
def uninitState : FSState :=
  { fileTable := [], container := [], headerLen := 0, maxFiles := 100,
    fileCount := 0, deletedCount := 0, isInit := false, atRest := false,
    nextId := 0, accessPassword := "" }

/-! ### Layout invariant -/

/-- Layout check: in table order every record begins at least 16 bytes past
the previous record's end (import computes write offsets from the sealed
file size, whose 16-byte tag leaves a gap before every record), the running
origin starting at the end of the header. -/
def layoutOk : Nat → List FileRecord → Bool
  | _, [] => true
  | e, r :: rs => decide (e + 16 ≤ r.position) && layoutOk (r.position + r.size) rs

/-- End of the last record's byte range (the running origin for an empty
table). -/
def endOf : Nat → List FileRecord → Nat
  | e, [] => e
  | _, r :: rs => endOf (r.position + r.size) rs

/-- Byte-range disjointness of two records. -/
def rangesDisjoint (a b : FileRecord) : Prop :=
  a.position + a.size ≤ b.position ∨ b.position + b.size ≤ a.position

/-- Reachable-state invariant: initialized, sealed at rest, gap-layout
well-formed, every record's range inside the container, record ids unique
and below the fresh-id counter, active count within capacity. -/
def FSInv (s : FSState) : Prop :=
  s.isInit = true ∧ s.atRest = true ∧
  layoutOk s.headerLen s.fileTable = true ∧
  endOf s.headerLen s.fileTable ≤ s.container.length ∧
  (s.fileTable.map (fun r => r.fid)).Nodup ∧
  (∀ r ∈ s.fileTable, r.fid < s.nextId) ∧
  countActive s.fileTable ≤ s.maxFiles

/-- One mutating container operation, as quantified over by the sequence
claims. -/
def Step (s t : FSState) : Prop :=
  (∃ prf E data fpw salt f, import_file prf E s data fpw salt = .ok (t, f)) ∨
  (∃ fid, delete_file_soft s fid = .ok t) ∨
  (∃ fid, recover_file s fid = .ok t) ∨
  (∃ fid, delete_file_permanent s fid = .ok t)

/-- Reflexive-transitive closure of the mutating operations. -/
def Reachable (s t : FSState) : Prop := Relation.ReflTransGen Step s t

theorem layoutOk_cons {e : Nat} {r : FileRecord} {rs : List FileRecord} :
    layoutOk e (r :: rs) = true ↔
      e + 16 ≤ r.position ∧ layoutOk (r.position + r.size) rs = true := by
  simp [layoutOk]

theorem layoutOk_le_position :
    ∀ (l : List FileRecord) (e : Nat), layoutOk e l = true →
      ∀ r ∈ l, e + 16 ≤ r.position := by
  intro l
  induction l with
  | nil => intro e _ r hr; simp at hr
  | cons x xs ih =>
    intro e hl r hr
    rw [layoutOk_cons] at hl
    rcases List.mem_cons.mp hr with h | h
    · rw [h]; exact hl.1
    · have := ih (x.position + x.size) hl.2 r h
      omega

theorem layoutOk_mono (l : List FileRecord) (e e2 : Nat) (h : e ≤ e2)
    (hl : layoutOk e2 l = true) : layoutOk e l = true := by
  cases l with
  | nil => rfl
  | cons x xs =>
    rw [layoutOk_cons] at hl ⊢
    exact ⟨by omega, hl.2⟩

theorem endOf_le :
    ∀ (l : List FileRecord) (e : Nat), layoutOk e l = true → e ≤ endOf e l := by
  intro l
  induction l with
  | nil => intro e _; exact le_refl e
  | cons x xs ih =>
    intro e hl
    rw [layoutOk_cons] at hl
    have h2 := ih (x.position + x.size) hl.2
    have : endOf e (x :: xs) = endOf (x.position + x.size) xs := rfl
    omega

theorem endOf_mono (l : List FileRecord) (a b : Nat) (h : a ≤ b) :
    endOf a l ≤ endOf b l := by
  cases l with
  | nil => exact h
  | cons x xs => exact le_refl _

theorem mem_end_le :
    ∀ (l : List FileRecord) (e : Nat), layoutOk e l = true →
      ∀ r ∈ l, r.position + r.size ≤ endOf e l := by
  intro l
  induction l with
  | nil => intro e _ r hr; simp at hr
  | cons x xs ih =>
    intro e hl r hr
    rw [layoutOk_cons] at hl
    have hrw : endOf e (x :: xs) = endOf (x.position + x.size) xs := rfl
    rcases List.mem_cons.mp hr with h | h
    · rw [h, hrw]; exact endOf_le xs _ hl.2
    · rw [hrw]; exact ih _ hl.2 r h

theorem layoutOk_pairwise :
    ∀ (l : List FileRecord) (e : Nat), layoutOk e l = true →
      l.Pairwise (fun a b => a.position + a.size + 16 ≤ b.position) := by
  intro l
  induction l with
  | nil => intro e _; exact List.Pairwise.nil
  | cons x xs ih =>
    intro e hl
    rw [layoutOk_cons] at hl
    refine List.Pairwise.cons ?_ (ih _ hl.2)
    intro b hb
    have := layoutOk_le_position xs (x.position + x.size) hl.2 b hb
    omega

theorem pairwise_cases {R : FileRecord → FileRecord → Prop} :
    ∀ (l : List FileRecord), l.Pairwise R → ∀ a ∈ l, ∀ b ∈ l,
      a = b ∨ R a b ∨ R b a := by
  intro l
  induction l with
  | nil => intro _ a ha; simp at ha
  | cons x xs ih =>
    intro hp a ha b hb
    rcases List.pairwise_cons.mp hp with ⟨hx, hxs⟩
    rcases List.mem_cons.mp ha with ha2 | ha2 <;>
      rcases List.mem_cons.mp hb with hb2 | hb2
    · left; rw [ha2, hb2]
    · right; left; rw [ha2]; exact hx b hb2
    · right; right; rw [hb2]; exact hx a ha2
    · exact ih hxs a ha2 b hb2

theorem layoutOk_append :
    ∀ (l : List FileRecord) (e : Nat) (r : FileRecord),
      layoutOk e l = true → endOf e l + 16 ≤ r.position →
      layoutOk e (l ++ [r]) = true := by
  intro l
  induction l with
  | nil =>
    intro e r _ h
    simp only [List.nil_append]
    rw [layoutOk_cons]
    exact ⟨h, rfl⟩
  | cons x xs ih =>
    intro e r hl hr
    rw [layoutOk_cons] at hl
    simp only [List.cons_append]
    rw [layoutOk_cons]
    exact ⟨hl.1, ih _ r hl.2 hr⟩

theorem endOf_append :
    ∀ (l : List FileRecord) (e : Nat) (r : FileRecord),
      endOf e (l ++ [r]) = r.position + r.size := by
  intro l
  induction l with
  | nil => intro e r; rfl
  | cons x xs ih => intro e r; exact ih (x.position + x.size) r

theorem shiftRecord_fid (P S : Nat) (f : FileRecord) :
    (shiftRecord P S f).fid = f.fid := by
  unfold shiftRecord; split <;> rfl

theorem shiftRecord_deleted (P S : Nat) (f : FileRecord) :
    (shiftRecord P S f).deleted = f.deleted := by
  unfold shiftRecord; split <;> rfl

theorem shift_layout (P S : Nat) :
    ∀ (l : List FileRecord) (q : Nat), layoutOk q l = true → P + S ≤ q →
      layoutOk (q - S) (l.map (shiftRecord P S)) = true ∧
      endOf (q - S) (l.map (shiftRecord P S)) + S = endOf q l := by
  intro l
  induction l with
  | nil =>
    intro q _ h
    refine ⟨rfl, ?_⟩
    show (q - S) + S = q
    omega
  | cons x xs ih =>
    intro q hl hq
    rw [layoutOk_cons] at hl
    have hx : P < x.position := by omega
    have hS : S ≤ x.position := by omega
    have hshift : shiftRecord P S x = { x with position := x.position - S } := by
      unfold shiftRecord
      rw [if_pos hx]
    have hpos : (x.position - S) + x.size = (x.position + x.size) - S := by omega
    have hih := ih (x.position + x.size) hl.2 (by omega)
    constructor
    · simp only [List.map_cons]
      rw [layoutOk_cons, hshift]
      refine ⟨by simp; omega, ?_⟩
      show layoutOk ((x.position - S) + x.size) (xs.map (shiftRecord P S)) = true
      rw [hpos]
      exact hih.1
    · simp only [List.map_cons]
      show endOf ((shiftRecord P S x).position + (shiftRecord P S x).size)
        (xs.map (shiftRecord P S)) + S = endOf (x.position + x.size) xs
      rw [hshift]
      show endOf ((x.position - S) + x.size) (xs.map (shiftRecord P S)) + S
        = endOf (x.position + x.size) xs
      rw [hpos]
      exact hih.2

theorem filter_ne_of_all_ne :
    ∀ (l : List FileRecord) (fid : Nat), (∀ g ∈ l, g.fid ≠ fid) →
      l.filter (fun f => f.fid != fid) = l := by
  intro l
  induction l with
  | nil => intro fid _; rfl
  | cons x xs ih =>
    intro fid h
    have hx : (x.fid != fid) = true := by
      simp [bne_iff_ne]
      exact h x (List.mem_cons_self x xs)
    simp only [List.filter_cons, hx, if_pos]
    rw [ih fid (fun g hg => h g (List.mem_cons_of_mem x hg))]

/-- Core compaction lemma: removing the record found by id and shifting
later offsets down by its size preserves the gap layout, and the table's
span shrinks by at least the removed size. -/
theorem perm_delete_layout (fid : Nat) :
    ∀ (l : List FileRecord) (e : Nat) (r : FileRecord),
      l.find? (fun f => f.fid == fid) = some r →
      layoutOk e l = true →
      (l.map (fun g => g.fid)).Nodup →
      layoutOk e ((l.filter (fun f => f.fid != fid)).map
        (shiftRecord r.position r.size)) = true ∧
      endOf e ((l.filter (fun f => f.fid != fid)).map
        (shiftRecord r.position r.size)) + r.size ≤ endOf e l := by
  intro l
  induction l with
  | nil => intro e r h; simp [List.find?] at h
  | cons x xs ih =>
    intro e r hfind hl hnd
    rw [layoutOk_cons] at hl
    rw [List.map_cons, List.nodup_cons] at hnd
    obtain ⟨hxnotin, hndxs⟩ := hnd
    by_cases hx : (x.fid == fid) = true
    · have hr : r = x := by
        simp only [List.find?_cons, hx] at hfind
        exact (Option.some.inj hfind).symm
      subst hr
      have hfidx : r.fid = fid := by simpa using hx
      have hallne : ∀ g ∈ xs, g.fid ≠ fid := by
        intro g hg hgeq
        exact hxnotin (by rw [hfidx, ← hgeq]; exact List.mem_map_of_mem _ hg)
      have hfilterx : ((r :: xs).filter (fun f => f.fid != fid)) = xs := by
        have hxf : (r.fid != fid) = false := by simp [hfidx]
        simp only [List.filter_cons, hxf]
        exact (if_neg (by simp)).trans (filter_ne_of_all_ne xs fid hallne)
      rw [hfilterx]
      have hsl := shift_layout r.position r.size xs (r.position + r.size)
        hl.2 (le_refl _)
      have hq : r.position + r.size - r.size = r.position := by omega
      rw [hq] at hsl
      have hle : e ≤ r.position := by omega
      constructor
      · exact layoutOk_mono _ e r.position hle hsl.1
      · have hrw : endOf e (r :: xs) = endOf (r.position + r.size) xs := rfl
        have hm := endOf_mono (xs.map (shiftRecord r.position r.size))
          e r.position hle
        omega
    · have hx2 : (x.fid == fid) = false := by simpa using hx
      have hfind2 : xs.find? (fun f => f.fid == fid) = some r := by
        simpa only [List.find?_cons, hx2] using hfind
      have hrmem : r ∈ xs := List.mem_of_find?_eq_some hfind2
      have hrpos : x.position + x.size + 16 ≤ r.position :=
        layoutOk_le_position xs (x.position + x.size) hl.2 r hrmem
      have hxkeep : (x.fid != fid) = true := by simpa using hx
      have hxshift : shiftRecord r.position r.size x = x := by
        unfold shiftRecord
        rw [if_neg (by omega)]
      have hih := ih (x.position + x.size) r hfind2 hl.2 hndxs
      constructor
      · simp only [List.filter_cons, hxkeep, if_pos, List.map_cons, hxshift]
        rw [layoutOk_cons]
        exact ⟨hl.1, hih.1⟩
      · simp only [List.filter_cons, hxkeep, if_pos, List.map_cons, hxshift]
        have hrw1 : endOf e (x :: (xs.filter (fun f => f.fid != fid)).map
            (shiftRecord r.position r.size)) =
            endOf (x.position + x.size) ((xs.filter (fun f => f.fid != fid)).map
              (shiftRecord r.position r.size)) := rfl
        have hrw2 : endOf e (x :: xs) = endOf (x.position + x.size) xs := rfl
        rw [hrw1, hrw2]
        exact hih.2

theorem removeRange_length (c : List Nat) (P S : Nat) (h : P + S ≤ c.length) :
    (c.take P ++ c.drop (P + S)).length + S = c.length := by
  simp only [List.length_append, List.length_take, List.length_drop]
  omega

theorem countActive_append_active (l : List FileRecord) (r : FileRecord)
    (h : r.deleted = false) : countActive (l ++ [r]) = countActive l + 1 := by
  simp [countActive, List.filter_append, h]

theorem countActive_filter_le (l : List FileRecord) (q : FileRecord → Bool) :
    countActive (l.filter q) ≤ countActive l :=
  List.Sublist.length_le (List.Sublist.filter _ (List.filter_sublist l))

theorem countActive_map_shift (P S : Nat) :
    ∀ (l : List FileRecord),
      countActive (l.map (shiftRecord P S)) = countActive l := by
  intro l
  induction l with
  | nil => rfl
  | cons x xs ih =>
    simp only [List.map_cons, countActive, List.filter_cons,
      shiftRecord_deleted] at ih ⊢
    cases hx : x.deleted <;> simp [hx, ih]

theorem countDeleted_map_shift (P S : Nat) :
    ∀ (l : List FileRecord),
      countDeleted (l.map (shiftRecord P S)) = countDeleted l := by
  intro l
  induction l with
  | nil => rfl
  | cons x xs ih =>
    simp only [List.map_cons, countDeleted, List.filter_cons,
      shiftRecord_deleted] at ih ⊢
    cases hx : x.deleted <;> simp [hx, ih]

theorem fids_map_shift (P S : Nat) (l : List FileRecord) :
    (l.map (shiftRecord P S)).map (fun r => r.fid) = l.map (fun r => r.fid) := by
  rw [List.map_map]
  exact List.map_congr_left (fun r _ => shiftRecord_fid P S r)

theorem layoutOk_markDeleted :
    ∀ (l : List FileRecord) (e fid : Nat),
      layoutOk e (markDeleted l fid) = layoutOk e l := by
  intro l
  induction l with
  | nil => intro e fid; rfl
  | cons x xs ih =>
    intro e fid
    unfold markDeleted
    split
    · rfl
    · show layoutOk e (x :: markDeleted xs fid) = layoutOk e (x :: xs)
      unfold layoutOk
      rw [ih (x.position + x.size) fid]

theorem endOf_markDeleted :
    ∀ (l : List FileRecord) (e fid : Nat),
      endOf e (markDeleted l fid) = endOf e l := by
  intro l
  induction l with
  | nil => intro e fid; rfl
  | cons x xs ih =>
    intro e fid
    unfold markDeleted
    split
    · rfl
    · show endOf e (x :: markDeleted xs fid) = endOf e (x :: xs)
      unfold endOf
      exact ih (x.position + x.size) fid

theorem fids_markDeleted :
    ∀ (l : List FileRecord) (fid : Nat),
      (markDeleted l fid).map (fun r => r.fid) = l.map (fun r => r.fid) := by
  intro l
  induction l with
  | nil => intro fid; rfl
  | cons x xs ih =>
    intro fid
    unfold markDeleted
    split
    · rfl
    · show (x :: markDeleted xs fid).map (fun r => r.fid)
        = (x :: xs).map (fun r => r.fid)
      simp only [List.map_cons, ih fid]

theorem countActive_markDeleted :
    ∀ (l : List FileRecord) (fid : Nat),
      countActive (markDeleted l fid) ≤ countActive l := by
  intro l
  induction l with
  | nil => intro fid; exact le_refl _
  | cons x xs ih =>
    intro fid
    unfold markDeleted
    split
    · simp [countActive, List.filter_cons]
      split <;> simp
    · show countActive (x :: markDeleted xs fid) ≤ countActive (x :: xs)
      simp only [countActive, List.filter_cons]
      cases hx : !x.deleted
      · simpa [countActive] using ih fid
      · simpa [countActive] using ih fid

theorem layoutOk_markRecovered :
    ∀ (l : List FileRecord) (e fid : Nat),
      layoutOk e (markRecovered l fid) = layoutOk e l := by
  intro l
  induction l with
  | nil => intro e fid; rfl
  | cons x xs ih =>
    intro e fid
    unfold markRecovered
    split
    · rfl
    · show layoutOk e (x :: markRecovered xs fid) = layoutOk e (x :: xs)
      unfold layoutOk
      rw [ih (x.position + x.size) fid]

theorem endOf_markRecovered :
    ∀ (l : List FileRecord) (e fid : Nat),
      endOf e (markRecovered l fid) = endOf e l := by
  intro l
  induction l with
  | nil => intro e fid; rfl
  | cons x xs ih =>
    intro e fid
    unfold markRecovered
    split
    · rfl
    · show endOf e (x :: markRecovered xs fid) = endOf e (x :: xs)
      unfold endOf
      exact ih (x.position + x.size) fid

theorem fids_markRecovered :
    ∀ (l : List FileRecord) (fid : Nat),
      (markRecovered l fid).map (fun r => r.fid) = l.map (fun r => r.fid) := by
  intro l
  induction l with
  | nil => intro fid; rfl
  | cons x xs ih =>
    intro fid
    unfold markRecovered
    split
    · rfl
    · show (x :: markRecovered xs fid).map (fun r => r.fid)
        = (x :: xs).map (fun r => r.fid)
      simp only [List.map_cons, ih fid]

theorem countActive_markRecovered :
    ∀ (l : List FileRecord) (fid : Nat),
      countActive (markRecovered l fid) ≤ countActive l + 1 := by
  intro l
  induction l with
  | nil => intro fid; simp [markRecovered]
  | cons x xs ih =>
    intro fid
    unfold markRecovered
    split
    · simp only [countActive, List.filter_cons]
      split
      · split <;> simp <;> omega
      · split <;> simp <;> omega
    · show countActive (x :: markRecovered xs fid) ≤ countActive (x :: xs) + 1
      simp only [countActive, List.filter_cons]
      cases hx : !x.deleted
      · simpa [countActive] using ih fid
      · simpa [countActive] using ih fid

/-! ### Operation unfoldings and invariant preservation -/

theorem writeAt_of_le (c : List Nat) (pos : Nat) (d : List Nat)
    (h : c.length ≤ pos) :
    writeAt c pos d = c ++ List.replicate (pos - c.length) 0 ++ d := by
  unfold writeAt
  rw [List.take_of_length_le h, List.drop_eq_nil_of_le (by omega),
    List.append_nil]

theorem writeAt_length_of_le (c : List Nat) (pos : Nat) (d : List Nat)
    (h : c.length ≤ pos) : (writeAt c pos d).length = pos + d.length := by
  rw [writeAt_of_le c pos d h]
  simp only [List.length_append, List.length_replicate]
  omega

theorem import_file_ok {prf : String → List Nat → List Nat}
    {E : List Nat → List Nat → List Nat} {s : FSState} {data : List Nat}
    {fpw : Option String} {salt : List Nat} {t : FSState} {f : Nat}
    (h : import_file prf E s data fpw salt = .ok (t, f)) :
    s.isInit = true ∧ countActive s.fileTable < s.maxFiles ∧ f = s.nextId ∧
    t = save_counts
      { s with
          fileTable := s.fileTable ++ [importRecord prf E s data fpw salt],
          fileCount := s.fileCount + 1,
          atRest := false,
          container := writeAt s.container (next_file_position s)
            (storedBytes prf E data fpw salt),
          nextId := s.nextId + 1 } := by
  unfold import_file at h
  by_cases h1 : s.isInit = false
  · rw [if_pos h1] at h; exact absurd h (by simp)
  · rw [if_neg h1] at h
    by_cases h2 : s.maxFiles ≤ countActive s.fileTable
    · rw [if_pos h2] at h; exact absurd h (by simp)
    · rw [if_neg h2] at h
      have h3 := Except.ok.inj h
      refine ⟨by cases hb : s.isInit; exact absurd hb h1; rfl, by omega, ?_, ?_⟩
      · exact congrArg Prod.snd h3.symm
      · exact congrArg Prod.fst h3.symm

theorem delete_soft_ok {s : FSState} {fid : Nat} {t : FSState}
    (h : delete_file_soft s fid = .ok t) :
    s.isInit = true ∧
    (∃ r, s.fileTable.find? (fun f => f.fid == fid && !f.deleted) = some r) ∧
    t = save_counts
      { s with fileTable := markDeleted s.fileTable fid,
               fileCount := s.fileCount - 1,
               deletedCount := s.deletedCount + 1 } := by
  unfold delete_file_soft at h
  by_cases h1 : s.isInit = false
  · rw [if_pos h1] at h; exact absurd h (by simp)
  · rw [if_neg h1] at h
    cases hfind : s.fileTable.find? (fun f => f.fid == fid && !f.deleted) with
    | none => rw [hfind] at h; exact absurd h (by simp)
    | some r =>
      rw [hfind] at h
      exact ⟨by cases hb : s.isInit; exact absurd hb h1; rfl, ⟨r, rfl⟩,
        (Except.ok.inj h).symm⟩

theorem recover_ok {s : FSState} {fid : Nat} {t : FSState}
    (h : recover_file s fid = .ok t) :
    s.isInit = true ∧ countActive s.fileTable < s.maxFiles ∧
    (∃ r, s.fileTable.find? (fun f => f.fid == fid && f.deleted) = some r) ∧
    t = save_counts
      { s with fileTable := markRecovered s.fileTable fid,
               fileCount := s.fileCount + 1,
               deletedCount := s.deletedCount - 1 } := by
  unfold recover_file at h
  by_cases h1 : s.isInit = false
  · rw [if_pos h1] at h; exact absurd h (by simp)
  · rw [if_neg h1] at h
    cases hfind : s.fileTable.find? (fun f => f.fid == fid && f.deleted) with
    | none => rw [hfind] at h; exact absurd h (by simp)
    | some r =>
      rw [hfind] at h
      by_cases h2 : s.maxFiles ≤ countActive s.fileTable
      · rw [if_pos h2] at h; exact absurd h (by simp)
      · rw [if_neg h2] at h
        exact ⟨by cases hb : s.isInit; exact absurd hb h1; rfl, by omega,
          ⟨r, rfl⟩, (Except.ok.inj h).symm⟩

theorem delete_permanent_ok {s : FSState} {fid : Nat} {t : FSState}
    (h : delete_file_permanent s fid = .ok t) :
    s.isInit = true ∧
    ∃ r, s.fileTable.find? (fun f => f.fid == fid) = some r ∧
      t = save_counts
        { s with
            container := s.container.take r.position ++
              s.container.drop (r.position + r.size),
            atRest := false,
            fileCount := if !r.deleted then s.fileCount - 1 else s.fileCount,
            deletedCount := if r.deleted then s.deletedCount - 1
              else s.deletedCount,
            fileTable := (s.fileTable.filter (fun f => f.fid != fid)).map
              (shiftRecord r.position r.size) } := by
  unfold delete_file_permanent at h
  by_cases h1 : s.isInit = false
  · rw [if_pos h1] at h; exact absurd h (by simp)
  · rw [if_neg h1] at h
    cases hfind : s.fileTable.find? (fun f => f.fid == fid) with
    | none => rw [hfind] at h; exact absurd h (by simp)
    | some r =>
      rw [hfind] at h
      exact ⟨by cases hb : s.isInit; exact absurd hb h1; rfl, r, rfl,
        (Except.ok.inj h).symm⟩

theorem FSInv_import {prf : String → List Nat → List Nat}
    {E : List Nat → List Nat → List Nat} {s : FSState} {data : List Nat}
    {fpw : Option String} {salt : List Nat} {t : FSState} {f : Nat}
    (hs : FSInv s) (h : import_file prf E s data fpw salt = .ok (t, f)) :
    FSInv t := by
  obtain ⟨hok1, hlt, hf, ht⟩ := import_file_ok h
  obtain ⟨hInit, hRest, hLay, hEnd, hNd, hBound, hCap⟩ := hs
  have hpos : next_file_position s = s.container.length + 16 := by
    simp [next_file_position, hRest]
  have hrecpos : (importRecord prf E s data fpw salt).position
      = s.container.length + 16 := by
    simp [importRecord, hpos]
  have hrecsize : (importRecord prf E s data fpw salt).size
      = (storedBytes prf E data fpw salt).length := rfl
  have hrecfid : (importRecord prf E s data fpw salt).fid = s.nextId := rfl
  have hrecdel : (importRecord prf E s data fpw salt).deleted = false := rfl
  subst ht
  refine ⟨hInit, rfl, ?_, ?_, ?_, ?_, ?_⟩
  · show layoutOk s.headerLen
      (s.fileTable ++ [importRecord prf E s data fpw salt]) = true
    refine layoutOk_append s.fileTable s.headerLen _ hLay ?_
    rw [hrecpos]
    omega
  · show endOf s.headerLen (s.fileTable ++ [importRecord prf E s data fpw salt])
      ≤ (writeAt s.container (next_file_position s)
        (storedBytes prf E data fpw salt)).length
    rw [endOf_append, hrecpos, hrecsize, hpos,
      writeAt_length_of_le _ _ _ (by omega)]
  · show ((s.fileTable ++ [importRecord prf E s data fpw salt]).map
      (fun r => r.fid)).Nodup
    rw [List.map_append, List.nodup_append]
    refine ⟨hNd, List.nodup_singleton _, ?_⟩
    intro a ha hb
    simp only [List.map_cons, List.map_nil, List.mem_singleton, hrecfid] at hb
    obtain ⟨g, hg, hga⟩ := List.mem_map.mp ha
    have := hBound g hg
    omega
  · intro r hr
    show r.fid < s.nextId + 1
    rcases List.mem_append.mp hr with h2 | h2
    · have := hBound r h2; omega
    · rw [List.mem_singleton.mp h2, hrecfid]; omega
  · show countActive (s.fileTable ++ [importRecord prf E s data fpw salt])
      ≤ s.maxFiles
    rw [countActive_append_active _ _ hrecdel]
    omega

theorem FSInv_delete_soft {s : FSState} {fid : Nat} {t : FSState}
    (hs : FSInv s) (h : delete_file_soft s fid = .ok t) : FSInv t := by
  obtain ⟨hok1, _, ht⟩ := delete_soft_ok h
  obtain ⟨hInit, hRest, hLay, hEnd, hNd, hBound, hCap⟩ := hs
  subst ht
  refine ⟨hInit, rfl, ?_, ?_, ?_, ?_, ?_⟩
  · show layoutOk s.headerLen (markDeleted s.fileTable fid) = true
    rw [layoutOk_markDeleted]; exact hLay
  · show endOf s.headerLen (markDeleted s.fileTable fid) ≤ s.container.length
    rw [endOf_markDeleted]; exact hEnd
  · show ((markDeleted s.fileTable fid).map (fun r => r.fid)).Nodup
    rw [fids_markDeleted]; exact hNd
  · intro r hr
    show r.fid < s.nextId
    have : r.fid ∈ (markDeleted s.fileTable fid).map (fun g => g.fid) :=
      List.mem_map_of_mem _ hr
    rw [fids_markDeleted] at this
    obtain ⟨g, hg, hge⟩ := List.mem_map.mp this
    rw [← hge]; exact hBound g hg
  · show countActive (markDeleted s.fileTable fid) ≤ s.maxFiles
    exact le_trans (countActive_markDeleted s.fileTable fid) hCap

theorem FSInv_recover {s : FSState} {fid : Nat} {t : FSState}
    (hs : FSInv s) (h : recover_file s fid = .ok t) : FSInv t := by
  obtain ⟨hok1, hlt, _, ht⟩ := recover_ok h
  obtain ⟨hInit, hRest, hLay, hEnd, hNd, hBound, hCap⟩ := hs
  subst ht
  refine ⟨hInit, rfl, ?_, ?_, ?_, ?_, ?_⟩
  · show layoutOk s.headerLen (markRecovered s.fileTable fid) = true
    rw [layoutOk_markRecovered]; exact hLay
  · show endOf s.headerLen (markRecovered s.fileTable fid) ≤ s.container.length
    rw [endOf_markRecovered]; exact hEnd
  · show ((markRecovered s.fileTable fid).map (fun r => r.fid)).Nodup
    rw [fids_markRecovered]; exact hNd
  · intro r hr
    show r.fid < s.nextId
    have : r.fid ∈ (markRecovered s.fileTable fid).map (fun g => g.fid) :=
      List.mem_map_of_mem _ hr
    rw [fids_markRecovered] at this
    obtain ⟨g, hg, hge⟩ := List.mem_map.mp this
    rw [← hge]; exact hBound g hg
  · show countActive (markRecovered s.fileTable fid) ≤ s.maxFiles
    exact le_trans (countActive_markRecovered s.fileTable fid) (by omega)

theorem FSInv_delete_permanent {s : FSState} {fid : Nat} {t : FSState}
    (hs : FSInv s) (h : delete_file_permanent s fid = .ok t) : FSInv t := by
  obtain ⟨hok1, r, hfind, ht⟩ := delete_permanent_ok h
  obtain ⟨hInit, hRest, hLay, hEnd, hNd, hBound, hCap⟩ := hs
  have hrmem : r ∈ s.fileTable := List.mem_of_find?_eq_some hfind
  have hrend : r.position + r.size ≤ endOf s.headerLen s.fileTable :=
    mem_end_le s.fileTable s.headerLen hLay r hrmem
  have hdel := perm_delete_layout fid s.fileTable s.headerLen r hfind hLay hNd
  have hlen := removeRange_length s.container r.position r.size (by omega)
  subst ht
  refine ⟨hInit, rfl, ?_, ?_, ?_, ?_, ?_⟩
  · exact hdel.1
  · show endOf s.headerLen ((s.fileTable.filter (fun f => f.fid != fid)).map
      (shiftRecord r.position r.size)) ≤
      (s.container.take r.position ++
        s.container.drop (r.position + r.size)).length
    omega
  · show (((s.fileTable.filter (fun f => f.fid != fid)).map
      (shiftRecord r.position r.size)).map (fun g => g.fid)).Nodup
    rw [fids_map_shift]
    exact List.Nodup.sublist
      (List.Sublist.map _ (List.filter_sublist s.fileTable)) hNd
  · intro g hg
    show g.fid < s.nextId
    obtain ⟨g2, hg2, hge⟩ := List.mem_map.mp hg
    rw [← hge, shiftRecord_fid]
    exact hBound g2 (List.mem_of_mem_filter hg2)
  · show countActive ((s.fileTable.filter (fun f => f.fid != fid)).map
      (shiftRecord r.position r.size)) ≤ s.maxFiles
    rw [countActive_map_shift]
    exact le_trans (countActive_filter_le s.fileTable _) hCap

theorem FSInv_step {s t : FSState} (hs : FSInv s) (h : Step s t) : FSInv t := by
  rcases h with ⟨prf, E, data, fpw, salt, f, h⟩ | ⟨fid, h⟩ | ⟨fid, h⟩ | ⟨fid, h⟩
  · exact FSInv_import hs h
  · exact FSInv_delete_soft hs h
  · exact FSInv_recover hs h
  · exact FSInv_delete_permanent hs h

theorem FSInv_reachable {s t : FSState} (hs : FSInv s) (h : Reachable s t) :
    FSInv t := by
  induction h with
  | refl => exact hs
  | tail _ h2 ih => exact FSInv_step ih h2

theorem FSInv_initState (header : List Nat) (maxN : Nat) (pw : String) :
    FSInv (initState header maxN pw) := by
  refine ⟨rfl, rfl, rfl, le_refl _, List.nodup_nil, ?_, ?_⟩
  · intro r hr; simp [initState] at hr
  · show countActive ([] : List FileRecord) ≤ maxN
    simp [countActive]

/-! ### Claim theorems -/

/-- C10: when the filesystem is not initialized, list_files returns the
empty list for both values of include_deleted instead of raising, while
every other public operation fails with the not-initialized error. -/
theorem C10_uninitialized_behaviour (s : FSState) (h : s.isInit = false) :
    list_files s true = [] ∧ list_files s false = [] ∧
    (∀ prf E data fpw salt,
      import_file prf E s data fpw salt = .error .notInitialized) ∧
    (∀ prf E fid fpw, export_file prf E s fid fpw = .error .notInitialized) ∧
    (∀ fid, delete_file_soft s fid = .error .notInitialized) ∧
    (∀ fid, delete_file_permanent s fid = .error .notInitialized) ∧
    (∀ fid, recover_file s fid = .error .notInitialized) ∧
    (∀ pw, verify_password s pw = .error .notInitialized) ∧
    (∀ old newPw, change_password s old newPw = .error .notInitialized) ∧
    save_filesystem s = .error .notInitialized := by
  refine ⟨?_, ?_, ?_, ?_, ?_, ?_, ?_, ?_, ?_, ?_⟩ <;>
    simp [list_files, import_file, export_file, delete_file_soft,
      delete_file_permanent, recover_file, verify_password, change_password,
      save_filesystem, h]

/-- Witness for C10 on the fresh manager state. -/
theorem C10_uninitialized_behaviour_witness :
    list_files uninitState true = [] ∧
    import_file prfZ blockZ uninitState [1] none [] = .error .notInitialized ∧
    save_filesystem uninitState = .error .notInitialized := by
  obtain ⟨h1, _, h3, _, _, _, _, _, _, h10⟩ :=
    C10_uninitialized_behaviour uninitState rfl
  exact ⟨h1, h3 prfZ blockZ [1] none [], h10⟩

/-- Witness string constants. -/
def pwB : String := "b"

/-- Witness string constants. -/
def pwC : String := "c"

/-- C4: after any operation sequence from an initialized empty container
the number of records with deleted=false never exceeds the configured
maximum, and an import or recover call made when the active count has
reached the maximum fails with the capacity error (the source raises before
mutating anything, so the table, flags and positions are untouched). -/
theorem C4_capacity_invariant (header : List Nat) (maxN : Nat) (pw : String)
    (s : FSState) (h : Reachable (initState header maxN pw) s) :
    countActive s.fileTable ≤ s.maxFiles ∧
    (∀ prf E data fpw salt, s.maxFiles ≤ countActive s.fileTable →
      import_file prf E s data fpw salt = .error .capacityExceeded) ∧
    (∀ fid r, s.maxFiles ≤ countActive s.fileTable →
      s.fileTable.find? (fun f => f.fid == fid && f.deleted) = some r →
      recover_file s fid = .error .capacityExceeded) := by
  have hinv := FSInv_reachable (FSInv_initState header maxN pw) h
  obtain ⟨hInit, _, _, _, _, _, hCap⟩ := hinv
  refine ⟨hCap, ?_, ?_⟩
  · intro prf E data fpw salt hge
    unfold import_file
    rw [if_neg (by simp [hInit]), if_pos hge]
  · intro fid r hge hfind
    unfold recover_file
    rw [if_neg (by simp [hInit]), hfind]
    exact if_pos hge

/-- Witness for C4 at capacity zero. -/
theorem C4_capacity_invariant_witness :
    countActive (initState [1] 0 pwB).fileTable ≤ (initState [1] 0 pwB).maxFiles ∧
    import_file prfZ blockZ (initState [1] 0 pwB) [5] none []
      = .error .capacityExceeded := by
  obtain ⟨h1, h2, _⟩ :=
    C4_capacity_invariant [1] 0 pwB _ Relation.ReflTransGen.refl
  exact ⟨h1, h2 prfZ blockZ [5] none [] (by decide)⟩

/-- A freshly initialized container with a 3-byte header. -/
def c3start : FSState := initState [1, 2, 3] 5 pwC

/-- C3 counterexample: importing into a freshly initialized container whose
decrypted length is 3 records the new bytes at offset 19 = 3 + 16, not at
offset 3.  import_file computes the write offset from the still-sealed
on-disk size (plaintext length plus the 16-byte tag), so a 16-byte
zero-filled gap precedes the stored bytes and the union of the record
ranges does not cover the container from the end of the header. -/
theorem C3_counterexample :
    (match import_file prfZ blockZ c3start [5, 6] none [] with
      | .ok (t, _) => (t.fileTable.map (fun r => r.position), t.container.length)
      | .error _ => ([], 0)) = ([19], 21) ∧
    c3start.container.length = 3 ∧ (19 : Nat) ≠ 3 := by
  exact ⟨by decide, rfl, by decide⟩

/-- C3 amended: after every operation sequence from an initialized empty
container, record byte ranges are pairwise disjoint and, in table order,
each record starts at least 16 bytes after the previous record's end (the
running origin being the end of the header), every range lying inside the
container; import_file appends its record at position equal to the current
AT-REST (sealed) container size -- the decrypted container length plus the
16-byte authentication tag -- and writes the stored bytes there after a
16-byte zero fill. -/
theorem C3_offset_partition_amended (header : List Nat) (maxN : Nat)
    (pw : String) (s : FSState) (h : Reachable (initState header maxN pw) s) :
    s.fileTable.Pairwise rangesDisjoint ∧
    layoutOk s.headerLen s.fileTable = true ∧
    endOf s.headerLen s.fileTable ≤ s.container.length ∧
    (∀ prf E data fpw salt t f,
      import_file prf E s data fpw salt = .ok (t, f) →
      t.fileTable = s.fileTable ++ [importRecord prf E s data fpw salt] ∧
      (importRecord prf E s data fpw salt).position = s.container.length + 16 ∧
      t.container = s.container ++ List.replicate 16 0 ++
        storedBytes prf E data fpw salt) := by
  have hinv := FSInv_reachable (FSInv_initState header maxN pw) h
  obtain ⟨hInit, hRest, hLay, hEnd, hNd, hBound, hCap⟩ := hinv
  refine ⟨?_, hLay, hEnd, ?_⟩
  · have hp := layoutOk_pairwise s.fileTable s.headerLen hLay
    exact hp.imp (fun hab => Or.inl (by omega))
  · intro prf E data fpw salt t f himp
    obtain ⟨_, _, _, ht⟩ := import_file_ok himp
    have hpos : next_file_position s = s.container.length + 16 := by
      simp [next_file_position, hRest]
    have h16 : s.container.length + 16 - s.container.length = 16 := by omega
    subst ht
    refine ⟨rfl, by simp [importRecord, hpos], ?_⟩
    show writeAt s.container (next_file_position s)
      (storedBytes prf E data fpw salt) = _
    rw [hpos, writeAt_of_le _ _ _ (by omega), h16]

/-- Witness for C3 amended at the initial state. -/
theorem C3_offset_partition_amended_witness :
    c3start.fileTable.Pairwise rangesDisjoint ∧
    layoutOk c3start.headerLen c3start.fileTable = true := by
  obtain ⟨h1, h2, _, _⟩ :=
    C3_offset_partition_amended [1, 2, 3] 5 pwC c3start Relation.ReflTransGen.refl
  exact ⟨h1, h2⟩

theorem pairs_markDeleted :
    ∀ (l : List FileRecord) (fid : Nat),
      (markDeleted l fid).map (fun g => (g.fid, g.position)) =
        l.map (fun g => (g.fid, g.position)) := by
  intro l
  induction l with
  | nil => intro fid; rfl
  | cons x xs ih =>
    intro fid
    unfold markDeleted
    split
    · rfl
    · show (x :: markDeleted xs fid).map (fun g => (g.fid, g.position))
        = (x :: xs).map (fun g => (g.fid, g.position))
      simp only [List.map_cons, ih fid]

theorem pairs_markRecovered :
    ∀ (l : List FileRecord) (fid : Nat),
      (markRecovered l fid).map (fun g => (g.fid, g.position)) =
        l.map (fun g => (g.fid, g.position)) := by
  intro l
  induction l with
  | nil => intro fid; rfl
  | cons x xs ih =>
    intro fid
    unfold markRecovered
    split
    · rfl
    · show (x :: markRecovered xs fid).map (fun g => (g.fid, g.position))
        = (x :: xs).map (fun g => (g.fid, g.position))
      simp only [List.map_cons, ih fid]

/-- C1: on a well-formed state, delete_file_permanent on the record of size
S at offset P replaces the container by its bytes before P followed by its
bytes from P+S on (so the length decreases by exactly S), removes the
record from the table, decreases position by exactly S for every remaining
record whose position was greater than P, keeps every remaining record with
position at most P unchanged, and no other operation changes an existing
record's position (import only appends a new record, soft delete and
recover only toggle flags, save only recomputes counters). -/
theorem C1_permanent_delete_compaction (s : FSState) (fid : Nat)
    (r : FileRecord) (t : FSState) (hs : FSInv s)
    (hfind : s.fileTable.find? (fun f => f.fid == fid) = some r)
    (h : delete_file_permanent s fid = .ok t) :
    t.container = s.container.take r.position ++
      s.container.drop (r.position + r.size) ∧
    t.container.length + r.size = s.container.length ∧
    (∀ g ∈ t.fileTable, g.fid ≠ fid) ∧
    (∀ g ∈ s.fileTable, g.fid ≠ fid →
      (r.position < g.position →
        { g with position := g.position - r.size } ∈ t.fileTable ∧
          r.position + r.size ≤ g.position) ∧
      (g.position ≤ r.position → g ∈ t.fileTable)) ∧
    (∀ fid2 u, delete_file_soft s fid2 = .ok u →
      u.fileTable.map (fun g => (g.fid, g.position)) =
        s.fileTable.map (fun g => (g.fid, g.position))) ∧
    (∀ fid2 u, recover_file s fid2 = .ok u →
      u.fileTable.map (fun g => (g.fid, g.position)) =
        s.fileTable.map (fun g => (g.fid, g.position))) ∧
    (∀ u, save_filesystem s = .ok u → u.fileTable = s.fileTable) ∧
    (∀ prf E data fpw salt u f2,
      import_file prf E s data fpw salt = .ok (u, f2) →
      u.fileTable.map (fun g => (g.fid, g.position)) =
        s.fileTable.map (fun g => (g.fid, g.position)) ++
          [(f2, next_file_position s)]) := by
  obtain ⟨hInit, hRest, hLay, hEnd, hNd, hBound, hCap⟩ := hs
  obtain ⟨_, r2, hfind2, ht⟩ := delete_permanent_ok h
  have hr2 : r2 = r := Option.some.inj ((hfind2.symm.trans hfind))
  subst r2
  have hrmem : r ∈ s.fileTable := List.mem_of_find?_eq_some hfind2
  have hrfid : r.fid = fid := by
    have := List.find?_some hfind2
    simpa using this
  have hrend : r.position + r.size ≤ endOf s.headerLen s.fileTable :=
    mem_end_le s.fileTable s.headerLen hLay r hrmem
  have hpair := layoutOk_pairwise s.fileTable s.headerLen hLay
  subst ht
  refine ⟨rfl, ?_, ?_, ?_, ?_, ?_, ?_, ?_⟩
  · show (s.container.take r.position ++
      s.container.drop (r.position + r.size)).length + r.size
      = s.container.length
    exact removeRange_length s.container r.position r.size (by omega)
  · intro g hg
    obtain ⟨g2, hg2, hge⟩ := List.mem_map.mp hg
    rw [← hge, shiftRecord_fid]
    have := List.of_mem_filter hg2
    simpa using this
  · intro g hgmem hgfid
    have hgne : g ≠ r := fun he => hgfid (by rw [he, hrfid])
    have hgfilter : g ∈ s.fileTable.filter (fun f => f.fid != fid) :=
      List.mem_filter.mpr ⟨hgmem, by simpa using hgfid⟩
    have hcases := pairwise_cases s.fileTable hpair g hgmem r hrmem
    constructor
    · intro hlt
      have hge : r.position + r.size ≤ g.position := by
        rcases hcases with he | hgr | hrg
        · exact absurd he hgne
        · omega
        · omega
      have hshift : shiftRecord r.position r.size g
          = { g with position := g.position - r.size } := by
        unfold shiftRecord
        rw [if_pos hlt]
      refine ⟨?_, hge⟩
      show _ ∈ (s.fileTable.filter (fun f => f.fid != fid)).map
        (shiftRecord r.position r.size)
      rw [← hshift]
      exact List.mem_map_of_mem _ hgfilter
    · intro hle
      have hshift : shiftRecord r.position r.size g = g := by
        unfold shiftRecord
        rw [if_neg (by omega)]
      show g ∈ (s.fileTable.filter (fun f => f.fid != fid)).map
        (shiftRecord r.position r.size)
      rw [← hshift]
      exact List.mem_map_of_mem _ hgfilter
  · intro fid2 u hu
    obtain ⟨_, _, htu⟩ := delete_soft_ok hu
    subst htu
    exact pairs_markDeleted s.fileTable fid2
  · intro fid2 u hu
    obtain ⟨_, _, _, htu⟩ := recover_ok hu
    subst htu
    exact pairs_markRecovered s.fileTable fid2
  · intro u hu
    unfold save_filesystem at hu
    rw [if_neg (by simp [hInit])] at hu
    rw [← Except.ok.inj hu]
    rfl
  · intro prf E data fpw salt u f2 hu
    obtain ⟨_, _, hf2, htu⟩ := import_file_ok hu
    subst htu hf2
    show (s.fileTable ++ [importRecord prf E s data fpw salt]).map
      (fun g => (g.fid, g.position)) = _
    rw [List.map_append]
    rfl

/-- Concrete two-record state for the C1 witness. -/
def c1s : FSState :=
  { fileTable := [
      { fid := 0, size := 2, position := 17, deleted := false,
        encrypted := false, encSalt := [], encNonce := [] },
      { fid := 1, size := 1, position := 35, deleted := false,
        encrypted := false, encSalt := [], encNonce := [] }],
    container := [9] ++ List.replicate 16 0 ++ [1, 2] ++
      List.replicate 16 0 ++ [3],
    headerLen := 1, maxFiles := 5, fileCount := 2, deletedCount := 0,
    isInit := true, atRest := true, nextId := 2, accessPassword := pwB }

/-- The state after permanently deleting file 0 of c1s. -/
def c1t : FSState :=
  { fileTable := [
      { fid := 1, size := 1, position := 33, deleted := false,
        encrypted := false, encSalt := [], encNonce := [] }],
    container := [9] ++ List.replicate 16 0 ++ List.replicate 16 0 ++ [3],
    headerLen := 1, maxFiles := 5, fileCount := 1, deletedCount := 0,
    isInit := true, atRest := true, nextId := 2, accessPassword := pwB }

/-- Witness for C1 at a concrete two-record state. -/
theorem C1_permanent_delete_compaction_witness :
    c1t.container = c1s.container.take 17 ++ c1s.container.drop 19 ∧
    c1t.container.length + 2 = c1s.container.length := by
  have h := C1_permanent_delete_compaction c1s 0
    { fid := 0, size := 2, position := 17, deleted := false,
      encrypted := false, encSalt := [], encNonce := [] } c1t
    (by unfold FSInv; decide) (by decide) (by rfl)
  exact ⟨h.1, h.2.1⟩

/-- Effect of the permanent-delete filter on the two record counts, given
the record found by id and unique ids. -/
theorem counts_filter_found (fid : Nat) :
    ∀ (l : List FileRecord) (r : FileRecord),
      l.find? (fun f => f.fid == fid) = some r →
      (l.map (fun g => g.fid)).Nodup →
      (r.deleted = true →
        countDeleted (l.filter (fun f => f.fid != fid)) + 1 = countDeleted l ∧
        countActive (l.filter (fun f => f.fid != fid)) = countActive l) ∧
      (r.deleted = false →
        countActive (l.filter (fun f => f.fid != fid)) + 1 = countActive l ∧
        countDeleted (l.filter (fun f => f.fid != fid)) = countDeleted l) := by
  intro l
  induction l with
  | nil => intro r h; simp [List.find?] at h
  | cons x xs ih =>
    intro r hfind hnd
    rw [List.map_cons, List.nodup_cons] at hnd
    obtain ⟨hxnotin, hndxs⟩ := hnd
    by_cases hx : (x.fid == fid) = true
    · have hr : r = x := by
        simp only [List.find?_cons, hx] at hfind
        exact (Option.some.inj hfind).symm
      subst hr
      have hfidx : r.fid = fid := by simpa using hx
      have hallne : ∀ g ∈ xs, g.fid ≠ fid := by
        intro g hg hgeq
        exact hxnotin (by rw [hfidx, ← hgeq]; exact List.mem_map_of_mem _ hg)
      have hfilterx : ((r :: xs).filter (fun f => f.fid != fid)) = xs := by
        have hxf : (r.fid != fid) = false := by simp [hfidx]
        simp only [List.filter_cons, hxf]
        exact (if_neg (by simp)).trans (filter_ne_of_all_ne xs fid hallne)
      rw [hfilterx]
      constructor
      · intro hdel
        constructor
        · simp [countDeleted, List.filter_cons, hdel]
        · simp [countActive, List.filter_cons, hdel]
      · intro hdel
        constructor
        · simp [countActive, List.filter_cons, hdel]
        · simp [countDeleted, List.filter_cons, hdel]
    · have hx2 : (x.fid == fid) = false := by simpa using hx
      have hfind2 : xs.find? (fun f => f.fid == fid) = some r := by
        simpa only [List.find?_cons, hx2] using hfind
      have hih := ih r hfind2 hndxs
      have hxkeep : (x.fid != fid) = true := by simpa using hx
      have hfiltercons : ((x :: xs).filter (fun f => f.fid != fid))
          = x :: xs.filter (fun f => f.fid != fid) := by
        simp [List.filter_cons, hxkeep]
      rw [hfiltercons]
      cases hxd : x.deleted
      · constructor
        · intro hdel
          have h2 := hih.1 hdel
          constructor
          · simp only [countDeleted, List.filter_cons, hxd]
            simpa [countDeleted] using h2.1
          · simp only [countActive, List.filter_cons, hxd]
            simpa [countActive] using h2.2
        · intro hdel
          have h2 := hih.2 hdel
          constructor
          · simp only [countActive, List.filter_cons, hxd]
            simpa [countActive] using h2.1
          · simp only [countDeleted, List.filter_cons, hxd]
            simpa [countDeleted] using h2.2
      · constructor
        · intro hdel
          have h2 := hih.1 hdel
          constructor
          · simp only [countDeleted, List.filter_cons, hxd]
            simpa [countDeleted] using h2.1
          · simp only [countActive, List.filter_cons, hxd]
            simpa [countActive] using h2.2
        · intro hdel
          have h2 := hih.2 hdel
          constructor
          · simp only [countActive, List.filter_cons, hxd]
            simpa [countActive] using h2.1
          · simp only [countDeleted, List.filter_cons, hxd]
            simpa [countDeleted] using h2.2

/-- C9: delete_file_permanent matches a record by id regardless of its
deleted flag: on an initialized state with unique record ids, permanently
deleting a soft-deleted record succeeds (it is not reported as not found)
and decrements the number of deleted records while leaving the number of
active records unchanged, whereas permanently deleting an active record
decrements the number of active records while leaving the number of deleted
records unchanged; the persisted deleted_count equals the number of deleted
records after the save. -/
theorem C9_permanent_delete_matches_any (s : FSState) (fid : Nat)
    (r : FileRecord) (hInit : s.isInit = true)
    (hNd : (s.fileTable.map (fun g => g.fid)).Nodup)
    (hfind : s.fileTable.find? (fun f => f.fid == fid) = some r) :
    ∃ t, delete_file_permanent s fid = .ok t ∧
      t.deletedCount = countDeleted t.fileTable ∧
      (r.deleted = true →
        countDeleted t.fileTable + 1 = countDeleted s.fileTable ∧
        countActive t.fileTable = countActive s.fileTable) ∧
      (r.deleted = false →
        countActive t.fileTable + 1 = countActive s.fileTable ∧
        countDeleted t.fileTable = countDeleted s.fileTable) := by
  have hcounts := counts_filter_found fid s.fileTable r hfind hNd
  refine ⟨save_counts
      { s with
          container := s.container.take r.position ++
            s.container.drop (r.position + r.size),
          atRest := false,
          fileCount := if !r.deleted then s.fileCount - 1 else s.fileCount,
          deletedCount := if r.deleted then s.deletedCount - 1
            else s.deletedCount,
          fileTable := (s.fileTable.filter (fun f => f.fid != fid)).map
            (shiftRecord r.position r.size) }, ?_, ?_, ?_, ?_⟩
  · unfold delete_file_permanent
    rw [if_neg (by simp [hInit]), hfind]
  · rfl
  · intro hdel
    have h2 := hcounts.1 hdel
    show (countDeleted ((s.fileTable.filter (fun f => f.fid != fid)).map
        (shiftRecord r.position r.size)) + 1 = countDeleted s.fileTable) ∧
      (countActive ((s.fileTable.filter (fun f => f.fid != fid)).map
        (shiftRecord r.position r.size)) = countActive s.fileTable)
    rw [countDeleted_map_shift, countActive_map_shift]
    exact h2
  · intro hdel
    have h2 := hcounts.2 hdel
    show (countActive ((s.fileTable.filter (fun f => f.fid != fid)).map
        (shiftRecord r.position r.size)) + 1 = countActive s.fileTable) ∧
      (countDeleted ((s.fileTable.filter (fun f => f.fid != fid)).map
        (shiftRecord r.position r.size)) = countDeleted s.fileTable)
    rw [countDeleted_map_shift, countActive_map_shift]
    exact h2

/-- Concrete one-soft-deleted-record state for the C9 witness. -/
def c9s : FSState :=
  { fileTable := [
      { fid := 0, size := 2, position := 17, deleted := true,
        encrypted := false, encSalt := [], encNonce := [] }],
    container := [9] ++ List.replicate 16 0 ++ [1, 2],
    headerLen := 1, maxFiles := 5, fileCount := 1, deletedCount := 1,
    isInit := true, atRest := true, nextId := 1, accessPassword := pwB }

/-- Witness for C9: permanently deleting a soft-deleted record succeeds and
adjusts only the deleted count. -/
theorem C9_permanent_delete_matches_any_witness :
    ∃ t, delete_file_permanent c9s 0 = .ok t ∧
      countDeleted t.fileTable + 1 = countDeleted c9s.fileTable ∧
      countActive t.fileTable = countActive c9s.fileTable := by
  obtain ⟨t, h1, _, h3, _⟩ := C9_permanent_delete_matches_any c9s 0
    { fid := 0, size := 2, position := 17, deleted := true,
      encrypted := false, encSalt := [], encNonce := [] }
    rfl (by decide) (by decide)
  exact ⟨t, h1, (h3 rfl).1, (h3 rfl).2⟩

/-- A freshly initialized 1-byte-header container for the C6 scenario. -/
def c6start : FSState := initState [7] 3 pwC

/-- The C6 state after importing one 2-byte unencrypted file. -/
def c6s1 : FSState :=
  { fileTable := [
      { fid := 0, size := 2, position := 17, deleted := false,
        encrypted := false, encSalt := [], encNonce := [] }],
    container := [7] ++ List.replicate 16 0 ++ [5, 6],
    headerLen := 1, maxFiles := 3, fileCount := 1, deletedCount := 0,
    isInit := true, atRest := true, nextId := 1, accessPassword := pwC }

/-- The C6 state after soft-deleting the single file. -/
def c6s2 : FSState :=
  { fileTable := [
      { fid := 0, size := 2, position := 17, deleted := true,
        encrypted := false, encSalt := [], encNonce := [] }],
    container := [7] ++ List.replicate 16 0 ++ [5, 6],
    headerLen := 1, maxFiles := 3, fileCount := 1, deletedCount := 1,
    isInit := true, atRest := true, nextId := 1, accessPassword := pwC }

/-- C6 (code bug): starting from a container holding exactly one active
imported file, soft-deleting it persists deleted_count = 1 and leaves the
file's bytes in the container, and a later recover_file restores file
count 1 and deleted count 0 -- but the persisted file count after the soft
delete is 1, not 0: save_filesystem recomputes file_count as
len(self.file_table), which still includes the soft-deleted record,
overwriting the decrement performed by delete_file_soft. -/
theorem C6_soft_delete_count_bug :
    import_file prfZ blockZ c6start [5, 6] none [] = .ok (c6s1, 0) ∧
    delete_file_soft c6s1 0 = .ok c6s2 ∧
    c6s2.fileCount = 1 ∧ c6s2.deletedCount = 1 ∧
    c6s2.container = c6s1.container ∧
    recover_file c6s2 0 = .ok c6s1 ∧
    c6s1.fileCount = 1 ∧ c6s1.deletedCount = 0 := by
  refine ⟨by rfl, by rfl, rfl, rfl, rfl, by rfl, rfl, rfl⟩

/-- Python comparison of a str and a bytes object: they are never equal, so
in load_filesystem line 119 the disequality of the identifier string with
the header slice disk_id from byte 4 to byte 20 is always true. -/
def pyStrNeBytes (s : String) (b : List Nat) : Bool := true

/-- The hardware identifier embedded in a container header by
initialize_filesystem (line 85): the 32 hex characters following the 5-byte
magic marker. -/
def headerIdentOf (disk : List Nat) : List Nat := (disk.drop 5).take 32

/-- The bytes of a Python string. -/
def strBytes (s : String) : List Nat := s.data.map Char.toNat

/-- MyFSManager.load_filesystem (lines 100-129).  machineIdent is the
hashed MachineGuid of the current machine, metaIdent the identifier stored
in the decrypted metadata, diskPlain the unsealed container bytes, and
passwordOk whether metadata decryption under the supplied password
succeeded (line 106 raises otherwise; the identity-check failure is also
re-wrapped in the same ValueError).  disk_id is the first
len(header) + 16 + 25 + 4 = 50 bytes of the file.  The mismatch branch
raises iff the machine identifier differs from the METADATA identifier,
because its second conjunct compares the identifier string against raw
header bytes and can never hold. -/
def load_filesystem (machineIdent metaIdent : String) (diskPlain : List Nat)
    (passwordOk : Bool) (table : List FileRecord) (maxN : Nat)
    (pw : String) : Except FSError FSState :=
  if passwordOk = false then .error .authError
  else
    if machineIdent ≠ metaIdent ∧
        pyStrNeBytes machineIdent (((diskPlain.take 50).drop 4).take 16) = true then
      .error .hardwareMismatch
    else
      .ok { fileTable := table, container := diskPlain, headerLen := 50,
            maxFiles := maxN, fileCount := table.length,
            deletedCount := countDeleted table, isInit := true,
            atRest := true, nextId := 0, accessPassword := pw }

/-- Content of a plausible decrypted container header whose embedded
identifier field consists of 32 ASCII zeros. -/
def c5disk : List Nat :=
  [77, 121, 70, 83, 0] ++ List.replicate 32 48 ++ [0] ++ List.replicate 12 0

/-- The hashed machine identifier used in the C5 scenarios. -/
def idA : String := "aa"

/-- The state load_filesystem produces in the C5 counterexample. -/
def c5loaded : FSState :=
  { fileTable := [], container := c5disk, headerLen := 50, maxFiles := 100,
    fileCount := 0, deletedCount := 0, isInit := true, atRest := true,
    nextId := 0, accessPassword := idA }

/-- C5 counterexample: a container whose header-embedded identifier (32
ASCII zeros) differs from the current machine's hashed identifier still
loads successfully when the metadata identifier matches: load_filesystem
compares the machine identifier only against the METADATA identifier,
because its other comparison -- the identifier string against raw header
bytes -- is a Python str-to-bytes comparison that never holds. -/
theorem C5_counterexample :
    headerIdentOf c5disk ≠ strBytes idA ∧
    (∃ t, load_filesystem idA idA c5disk true [] 100 idA = .ok t) := by
  refine ⟨by decide, ⟨c5loaded, ?_⟩⟩
  unfold load_filesystem
  rw [if_neg (by simp)]
  rw [if_neg (by simp)]
  rfl

/-- C5 amended: with the metadata successfully decrypted (correct
password), load fails with the hardware-mismatch error exactly when the
current machine's hashed identifier differs from the identifier stored in
the METADATA record, independently of the identifier embedded in the
container header (the source's comparison of the identifier string with raw
header bytes never succeeds); success is equivalent to the metadata
identifier matching. -/
theorem C5_hardware_check_amended (machineIdent metaIdent : String)
    (diskPlain : List Nat) (table : List FileRecord) (maxN : Nat)
    (pw : String) :
    (load_filesystem machineIdent metaIdent diskPlain true table maxN pw
      = .error .hardwareMismatch ↔ machineIdent ≠ metaIdent) ∧
    ((∃ t, load_filesystem machineIdent metaIdent diskPlain true table maxN pw
      = .ok t) ↔ machineIdent = metaIdent) := by
  unfold load_filesystem
  rw [if_neg (by simp)]
  by_cases h : machineIdent = metaIdent
  · rw [if_neg (by simp [h])]
    constructor
    · constructor
      · intro hbad; exact absurd hbad (by simp)
      · intro hne; exact absurd h hne
    · constructor
      · intro _; exact h
      · intro _; exact ⟨_, rfl⟩
  · rw [if_pos ⟨h, rfl⟩]
    constructor
    · constructor
      · intro _; exact h
      · intro _; rfl
    · constructor
      · intro ht
        obtain ⟨t, ht⟩ := ht
        exact absurd ht (by simp)
      · intro he; exact absurd he h

theorem find?_append_of_none {p : FileRecord → Bool} :
    ∀ (l1 l2 : List FileRecord), l1.find? p = none →
      (l1 ++ l2).find? p = l2.find? p := by
  intro l1
  induction l1 with
  | nil => intro l2 _; rfl
  | cons x xs ih =>
    intro l2 hnone
    rw [List.cons_append]
    cases hp : p x
    · have hx : xs.find? p = none := by
        simpa only [List.find?_cons, hp] using hnone
      simp only [List.find?_cons, hp]
      exact ih l2 hx
    · exfalso
      simp only [List.find?_cons, hp] at hnone
      exact Option.noConfusion hnone

theorem export_file_found (prf : String → List Nat → List Nat)
    (E : List Nat → List Nat → List Nat) {s : FSState} {fid : Nat}
    {r : FileRecord} (fpw : Option String) (hInit : s.isInit = true)
    (hfind : s.fileTable.find? (fun f => f.fid == fid && !f.deleted) = some r) :
    export_file prf E s fid fpw = export_found prf E s r fpw := by
  unfold export_file
  rw [if_neg (by simp [hInit]), hfind]

theorem export_found_none (prf : String → List Nat → List Nat)
    (E : List Nat → List Nat → List Nat) (s : FSState) (r : FileRecord)
    (henc : r.encrypted = true) :
    export_found prf E s r none = .error .passwordRequired := by
  unfold export_found
  rw [if_pos henc]

theorem export_found_some (prf : String → List Nat → List Nat)
    (E : List Nat → List Nat → List Nat) (s : FSState) (r : FileRecord)
    (pw : String) (henc : r.encrypted = true) :
    export_found prf E s r (some pw) = export_decrypt prf E s r pw := by
  unfold export_found
  rw [if_pos henc]

/-- C7: for an active individually-encrypted record, export fails with the
password-required error when no file password is supplied; when a password
is supplied the per-file key and nonce are re-derived from the record's
stored salt, and export fails before attempting any decryption whenever the
derived nonce differs from the record's stored nonce (so a password whose
derived nonce does not match the stored one fails); exporting right after
an import under the same file password succeeds and returns the original
plaintext bytes. -/
theorem C7_export_per_file_password (prf : String → List Nat → List Nat)
    (E : List Nat → List Nat → List Nat)
    (hE : ∀ k b, (E k b).length = 16) :
    (∀ s fid r, s.isInit = true →
      s.fileTable.find? (fun f => f.fid == fid && !f.deleted) = some r →
      r.encrypted = true →
      export_file prf E s fid none = .error .passwordRequired) ∧
    (∀ s fid r pw, s.isInit = true →
      s.fileTable.find? (fun f => f.fid == fid && !f.deleted) = some r →
      r.encrypted = true →
      (FS_Crypto.derive_key prf pw r.encSalt defaultIterations).2 ≠ r.encNonce →
      export_file prf E s fid (some pw) = .error .authError) ∧
    (∀ s data pw salt t f, FSInv s →
      import_file prf E s data (some pw) salt = .ok (t, f) →
      export_file prf E t f (some pw) = .ok data) := by
  refine ⟨?_, ?_, ?_⟩
  · intro s fid r hInit hfind henc
    rw [export_file_found prf E none hInit hfind,
      export_found_none prf E s r henc]
  · intro s fid r pw hInit hfind henc hne
    rw [export_file_found prf E (some pw) hInit hfind,
      export_found_some prf E s r pw henc]
    unfold export_decrypt
    rw [if_neg hne]
  · intro s data pw salt t f hsInv himp
    obtain ⟨hInit0, hlt, hf, ht⟩ := import_file_ok himp
    obtain ⟨_, hRest, _, hEnd, _, hBound, _⟩ := hsInv
    subst hf
    have hT : t.fileTable
        = s.fileTable ++ [importRecord prf E s data (some pw) salt] := by
      rw [ht]; rfl
    have hTc : t.container = writeAt s.container (next_file_position s)
        (storedBytes prf E data (some pw) salt) := by
      rw [ht]; rfl
    have hTi : t.isInit = true := by rw [ht]; exact hInit0
    have hfind0 : s.fileTable.find?
        (fun g => g.fid == s.nextId && !g.deleted) = none := by
      rw [List.find?_eq_none]
      intro g hg hcon
      rw [Bool.and_eq_true, beq_iff_eq] at hcon
      obtain ⟨h1, _⟩ := hcon
      have := hBound g hg
      omega
    have hpred : ((importRecord prf E s data (some pw) salt).fid == s.nextId
        && !(importRecord prf E s data (some pw) salt).deleted) = true := by
      simp [importRecord]
    have hfindt : t.fileTable.find? (fun g => g.fid == s.nextId && !g.deleted)
        = some (importRecord prf E s data (some pw) salt) := by
      rw [hT, find?_append_of_none _ _ hfind0]
      simp only [List.find?_cons, hpred]
    have henc : (importRecord prf E s data (some pw) salt).encrypted
        = true := rfl
    rw [export_file_found prf E (some pw) hTi hfindt,
      export_found_some prf E t _ pw henc]
    unfold export_decrypt
    have hsalt : (importRecord prf E s data (some pw) salt).encSalt
        = salt := rfl
    have hnonceval : (importRecord prf E s data (some pw) salt).encNonce
        = (FS_Crypto.derive_key prf pw salt defaultIterations).2 := by
      simp only [importRecord]
    have hcond : (FS_Crypto.derive_key prf pw
        (importRecord prf E s data (some pw) salt).encSalt
        defaultIterations).2
        = (importRecord prf E s data (some pw) salt).encNonce := by
      rw [hsalt, hnonceval]
    rw [if_pos hcond]
    rw [hsalt, hnonceval]
    have hst : storedBytes prf E data (some pw) salt
        = FS_Crypto.encrypt E data
          (FS_Crypto.derive_key prf pw salt defaultIterations).1
          (FS_Crypto.derive_key prf pw salt defaultIterations).2 := rfl
    have hpos : next_file_position s = s.container.length + 16 := by
      simp [next_file_position, hRest]
    have hw : writeAt s.container (next_file_position s)
        (storedBytes prf E data (some pw) salt)
        = (s.container ++ List.replicate 16 0) ++
          storedBytes prf E data (some pw) salt := by
      rw [hpos, writeAt_of_le _ _ _ (by omega)]
      have h16 : s.container.length + 16 - s.container.length = 16 := by omega
      rw [h16]
    have hrpos : (importRecord prf E s data (some pw) salt).position
        = next_file_position s := rfl
    have hrsize : (importRecord prf E s data (some pw) salt).size
        = (storedBytes prf E data (some pw) salt).length := rfl
    have hsliceT : ((t.container.drop
        (importRecord prf E s data (some pw) salt).position).take
        (importRecord prf E s data (some pw) salt).size)
        = storedBytes prf E data (some pw) salt := by
      rw [hrpos, hrsize, hTc, hw, hpos]
      rw [show s.container.length + 16
        = (s.container ++ List.replicate 16 0).length from by simp]
      rw [List.drop_left, List.take_length]
    have hdec : FS_Crypto.decrypt E (storedBytes prf E data (some pw) salt)
        (FS_Crypto.derive_key prf pw salt defaultIterations).1
        (FS_Crypto.derive_key prf pw salt defaultIterations).2 = some data := by
      rw [hst]
      exact gcm_roundtrip E hE data _ _
    rw [hsliceT, hdec]

/-- Concrete state with one encrypted record for the C7 witness. -/
def c7s : FSState :=
  { fileTable := [
      { fid := 0, size := 2, position := 17, deleted := false,
        encrypted := true, encSalt := [7], encNonce := [9, 9] }],
    container := [3] ++ List.replicate 16 0 ++ [1, 2],
    headerLen := 1, maxFiles := 5, fileCount := 1, deletedCount := 0,
    isInit := true, atRest := true, nextId := 1, accessPassword := pwB }

/-- Witness for C7: exporting the encrypted record without a password fails
with the password-required error. -/
theorem C7_export_per_file_password_witness :
    export_file prfZ blockZ c7s 0 none = .error .passwordRequired :=
  (C7_export_per_file_password prfZ blockZ (fun _ _ => by simp [blockZ])).1
    c7s 0
    { fid := 0, size := 2, position := 17, deleted := false,
      encrypted := true, encSalt := [7], encNonce := [9, 9] }
    rfl (by decide) rfl
